import Mathlib

/-!
Verification of the company-classification pipeline of the job-extraction
repository (src/company_categorizer.py).

Strings are embedded as lists of character codes (`List Nat`, Unicode scalar
values).  The character-class predicates model the ASCII behaviour of the
Python string operations and of the `re` module (the repository only ever
feeds ASCII company names and patterns into them): `\w` is `[A-Za-z0-9_]`,
`\s` is `[\t\n\v\f\r ]`, `str.lower` and `re.IGNORECASE` act on `A`-`Z`.
-/

/-- Character codes of a string literal, used to state concrete examples. -/
def encode (s : String) : List Nat := s.data.map Char.toNat

/-- Model of `\s` (ASCII): tab, newline, vertical tab, form feed, carriage
return, and space. -/
def isSpace (n : Nat) : Bool := n == 32 || (9 ≤ n && n ≤ 13)

/-- Model of `\w` (ASCII): letters, digits and underscore. -/
def isWordChar (n : Nat) : Bool :=
  (97 ≤ n && n ≤ 122) || (65 ≤ n && n ≤ 90) || (48 ≤ n && n ≤ 57) || n == 95

/-- Model of `str.lower` on one character (ASCII). -/
def lowerChar (n : Nat) : Nat := if 65 ≤ n ∧ n ≤ 90 then n + 32 else n

/-- Characters kept by the substitution `re.sub(r'[^\w\s&-]', '', _)` in
`normalize_company_name`: word characters, whitespace, `&` (38), `-` (45). -/
def keepChar (n : Nat) : Bool := isWordChar n || isSpace n || n == 38 || n == 45

/-- Model of `str.strip` on the left: drop leading whitespace. -/
def trimLeft (s : List Nat) : List Nat := s.dropWhile isSpace

/-- Model of `str.strip` on the right: drop trailing whitespace. -/
def trimRight : List Nat → List Nat
  | [] => []
  | c :: r =>
    let r' := trimRight r
    if r' = [] ∧ isSpace c then [] else c :: r'

/-- Model of `str.strip`: drop leading and trailing whitespace. -/
def trim (s : List Nat) : List Nat := trimRight (trimLeft s)

/-- Scanner for `re.sub(r'\s+', ' ', _)`: `prevSp` records whether the
previous character was whitespace.  The first character of each whitespace
run is emitted as a single space (code 32) and the rest of the run is
dropped. -/
def collapseFrom (prevSp : Bool) : List Nat → List Nat
  | [] => []
  | c :: r =>
    if isSpace c then
      if prevSp then collapseFrom true r else 32 :: collapseFrom true r
    else c :: collapseFrom false r

/-- Model of `re.sub(r'\s+', ' ', _)`: every maximal run of whitespace is
replaced by a single space (code 32). -/
def collapse (s : List Nat) : List Nat := collapseFrom false s

/-- Sentinel company value treated as absent by the source. -/
def naStr : List Nat := encode "N/A"

/-- Label used by the source for unclassified companies. -/
def unknownLabel : List Nat := encode "Unknown"

/-- Corporate-form suffixes of the regex
`\b(pty\s+ltd|pte\s+ltd|sdn\s+bhd|ltd|limited|inc|incorporated|llc|plc|corp|corporation|company|co|gmbh|sa|srl|group|holdings|services|solutions|international|global|australia|aust)\b$`,
each alternative given as its whitespace-separated words. -/
def suffixAlts : List (List (List Nat)) :=
  [[encode "pty", encode "ltd"], [encode "pte", encode "ltd"], [encode "sdn", encode "bhd"],
   [encode "ltd"], [encode "limited"], [encode "inc"], [encode "incorporated"], [encode "llc"],
   [encode "plc"], [encode "corp"], [encode "corporation"], [encode "company"], [encode "co"],
   [encode "gmbh"], [encode "sa"], [encode "srl"], [encode "group"], [encode "holdings"],
   [encode "services"], [encode "solutions"], [encode "international"], [encode "global"],
   [encode "australia"], [encode "aust"]]

/-- Whether `s` consists exactly of the given words joined by runs of one or
more whitespace characters (the `\s+` of the multi-word alternatives), ending
at the end of the string (the `$` anchor). -/
def matchWordsEnd : List (List Nat) → List Nat → Bool
  | [], s => s.isEmpty
  | [w], s => s == w
  | w :: ws, s =>
    w.isPrefixOf s &&
      (match s.drop w.length with
       | [] => false
       | c :: r => isSpace c && matchWordsEnd ws ((c :: r).dropWhile isSpace))

/-- Model of `re.sub(suffixes_pattern, '', _)`: scanning left to right, the
first position that is at a word boundary (`bdry` records that the previous
character, if any, is not a word character) and from which one alternative
spans the rest of the string is deleted together with everything after it.
Since every alternative must reach the end of the string, this deletes the
longest matching suffix. -/
def stripSuffixScan (bdry : Bool) : List Nat → List Nat
  | [] => []
  | c :: r =>
    if bdry && suffixAlts.any (fun alt => matchWordsEnd alt (c :: r)) then []
    else c :: stripSuffixScan (!isWordChar c) r

/-- Whether the first character of the string, if any, is whitespace. -/
def headIsSpace : List Nat → Bool
  | c :: _ => isSpace c
  | [] => false

/-- Scanner for `re.sub(r'\b(the\s+)', '', _)` (codes 116 104 101 are
`t` `h` `e`).  `skip` records that the scanner is inside the whitespace run
of a current match (the greedy `\s+`), whose characters are dropped;
`bdry` records whether the previous character, if any, was not a word
character, i.e. whether a `\b` boundary precedes the current position.  On
leaving a skipped run the boundary holds, since a whitespace character
precedes.  When `the` is read at a boundary but is not followed by
whitespace, the three characters are emitted at once: no new match can
begin at its `h` or `e`, whose preceding character is a word character. -/
def removeTheFrom : Bool → Bool → List Nat → List Nat
  | _, _, [] => []
  | skip, bdry, 116 :: 104 :: 101 :: rest =>
    if (skip || bdry) && headIsSpace rest then removeTheFrom true true rest
    else 116 :: 104 :: 101 :: removeTheFrom false false rest
  | skip, _, c :: r =>
    if skip && isSpace c then removeTheFrom true true r
    else c :: removeTheFrom false (!isWordChar c) r

/-- Model of `re.sub(r'\b(the\s+)', '', _)`: every occurrence of `the` that
sits at a word boundary and is followed by whitespace is removed together
with the whitespace run after it. -/
def removeThe (s : List Nat) : List Nat := removeTheFrom false true s

/-- Absence of any match of `\b(the\s+)` in a scan that starts with boundary
flag `bdry`: no position of the string carries `the` at a word boundary
followed by whitespace. -/
def noThe : Bool → List Nat → Prop
  | _, [] => True
  | bdry, 116 :: 104 :: 101 :: rest =>
    (bdry = true → headIsSpace rest = false) ∧ noThe false rest
  | _, c :: r => noThe (!isWordChar c) r

/-- Whitespace discipline of collapsed strings: every whitespace character
is the single space 32, and whitespace is never followed by whitespace. -/
def spacedOK : List Nat → Prop
  | [] => True
  | [c] => isSpace c = true → c = 32
  | c :: d :: r => (isSpace c = true → (c = 32 ∧ isSpace d = false)) ∧ spacedOK (d :: r)

/-- Model of `CompanyCategorizer.normalize_company_name`
(src/company_categorizer.py, lines 174-206): empty or `N/A` input is
returned unchanged; otherwise the name is lowercased and stripped,
whitespace runs are collapsed, characters other than `\w`, whitespace, `&`
and `-` are removed, a trailing corporate suffix is removed, occurrences of
`the` followed by whitespace at word boundaries are removed, and whitespace
is collapsed and stripped a final time. -/
def normalize_company_name (company_name : List Nat) : List Nat :=
  if company_name = [] ∨ company_name = naStr then company_name
  else
    let n1 := trim (company_name.map lowerChar)
    let n2 := collapse n1
    let n3 := n2.filter keepChar
    let n4 := stripSuffixScan true n3
    let n5 := removeThe n4
    trim (collapse n5)

/-- Patterns used by the rule matcher: either a literal substring, or two
literals separated by `.*` (which matches any characters except newline). -/
inductive Pat where
  | lit (w : List Nat)
  | seq (w1 w2 : List Nat)

/-- Whether `w` occurs as a contiguous substring of `s`. -/
def isSubstr (w : List Nat) : List Nat → Bool
  | [] => w.isEmpty
  | c :: r => w.isPrefixOf (c :: r) || isSubstr w r

/-- Whether `w` occurs at some position of `s` reachable without crossing a
newline (code 10), modelling `.*w` applied at the current position. -/
def seekNoNL (w : List Nat) : List Nat → Bool
  | [] => w.isEmpty
  | c :: r => w.isPrefixOf (c :: r) || (!(c == 10) && seekNoNL w r)

/-- Whether `w1.*w2` matches somewhere in `s` (Python `re.search` with `.`
not matching newline). -/
def seqSearch (w1 w2 : List Nat) : List Nat → Bool
  | [] => w1.isEmpty && w2.isEmpty
  | c :: r =>
    (w1.isPrefixOf (c :: r) && seekNoNL w2 ((c :: r).drop w1.length)) || seqSearch w1 w2 r

/-- Model of `re.search(pattern, name)` returning whether a match exists. -/
def reSearch : Pat → List Nat → Bool
  | .lit w, s => isSubstr w s
  | .seq w1 w2, s => seqSearch w1 w2 s

/-- Recruitment agency patterns (source lines 41-45). -/
def recruitment_patterns : List Pat :=
  [.lit (encode "recruit"), .lit (encode "people"), .lit (encode "talent"),
   .lit (encode "staffing"), .lit (encode "personnel"), .lit (encode "executive"),
   .lit (encode "placement"), .lit (encode "workforce"),
   .seq (encode "consulting") (encode "hr"), .seq (encode "human") (encode "resources"),
   .seq (encode "hr") (encode "solutions"), .lit (encode "employment")]

/-- Healthcare patterns (source lines 51-54). -/
def health_patterns : List Pat :=
  [.lit (encode "health"), .lit (encode "medical"), .lit (encode "hospital"),
   .lit (encode "clinic"), .lit (encode "pharma"), .lit (encode "dental"),
   .lit (encode "care"), .lit (encode "wellness"), .lit (encode "therapy")]

/-- Financial patterns (source lines 60-63). -/
def finance_patterns : List Pat :=
  [.lit (encode "bank"), .lit (encode "finance"), .lit (encode "insurance"),
   .lit (encode "investment"), .lit (encode "capital"), .lit (encode "credit"),
   .lit (encode "loan"), .lit (encode "wealth"), .lit (encode "fund"),
   .lit (encode "financial")]

/-- Education patterns (source lines 69-72). -/
def education_patterns : List Pat :=
  [.lit (encode "school"), .lit (encode "university"), .lit (encode "college"),
   .lit (encode "education"), .lit (encode "training"), .lit (encode "learning"),
   .lit (encode "academy"), .lit (encode "institute")]

/-- Construction patterns (source lines 78-81). -/
def construction_patterns : List Pat :=
  [.lit (encode "construction"), .lit (encode "building"), .lit (encode "contractor"),
   .lit (encode "engineering"), .lit (encode "architect"), .lit (encode "property"),
   .seq (encode "real") (encode "estate"), .lit (encode "development")]

/-- Retail patterns (source lines 87-90). -/
def retail_patterns : List Pat :=
  [.lit (encode "retail"), .lit (encode "shop"), .lit (encode "store"),
   .lit (encode "market"), .lit (encode "sales"), .lit (encode "commerce"),
   .lit (encode "fashion"), .lit (encode "clothing"), .lit (encode "goods")]

/-- Technology patterns (source lines 96-99). -/
def tech_patterns : List Pat :=
  [.lit (encode "tech"), .lit (encode "software"), .lit (encode "systems"),
   .lit (encode "digital"), .lit (encode "data"), .lit (encode "cyber"),
   .lit (encode "cloud"), .lit (encode "analytics"), .lit (encode "automation"),
   .lit (encode "ai"), .lit (encode "machine learning")]

/-- Manufacturing patterns (source lines 105-108). -/
def manufacturing_patterns : List Pat :=
  [.lit (encode "manufacturing"), .lit (encode "factory"), .lit (encode "production"),
   .lit (encode "industrial"), .lit (encode "automotive"), .lit (encode "steel"),
   .lit (encode "chemical"), .lit (encode "pharmaceutical")]

/-- Model of `CompanyCategorizer.categorize_with_regex`
(src/company_categorizer.py, lines 25-113): empty or `N/A` names yield no
category; otherwise the name is lowercased and the eight topic checks are
applied in the order of the source, returning the first topic one of whose
patterns matches, and `none` when no pattern matches. -/
def categorize_with_regex (company_name : List Nat) : Option (List Nat) :=
  if company_name = [] ∨ company_name = naStr then none
  else
    let name := company_name.map lowerChar
    if recruitment_patterns.any (fun p => reSearch p name) then some (encode "Recruitment & Staffing")
    else if health_patterns.any (fun p => reSearch p name) then some (encode "Healthcare Services")
    else if finance_patterns.any (fun p => reSearch p name) then some (encode "Financial Services")
    else if education_patterns.any (fun p => reSearch p name) then some (encode "Education & Training")
    else if construction_patterns.any (fun p => reSearch p name) then some (encode "Construction & Engineering")
    else if retail_patterns.any (fun p => reSearch p name) then some (encode "Retail & E-commerce")
    else if tech_patterns.any (fun p => reSearch p name) then some (encode "Technology & Software")
    else if manufacturing_patterns.any (fun p => reSearch p name) then some (encode "Manufacturing")
    else none

/-- Ordered topic table as described by the specification (section 4.2 and
data model entry CategoryRule): the eight topics in source order, each with
its pattern set. -/
def ruleTable : List (List Nat × List Pat) :=
  [(encode "Recruitment & Staffing", recruitment_patterns),
   (encode "Healthcare Services", health_patterns),
   (encode "Financial Services", finance_patterns),
   (encode "Education & Training", education_patterns),
   (encode "Construction & Engineering", construction_patterns),
   (encode "Retail & E-commerce", retail_patterns),
   (encode "Technology & Software", tech_patterns),
   (encode "Manufacturing", manufacturing_patterns)]

/-- Modelled from the claim wording for C7: the first topic in list order
any of whose patterns matches anywhere in the (lowercased) name. -/
def firstTopicMatch (company_name : List Nat) : Option (List Nat) :=
  (ruleTable.find? (fun tp => tp.2.any (fun p => reSearch p (company_name.map lowerChar)))).map
    Prod.fst

/-- Outcome of one `requests.post` call to the remote endpoint:
`response status body` is an HTTP response whose extracted
`choices[0].message.content` string is `body` (with `none` when `json()` or
the field extraction raises), and `failure` is a raised exception (timeout,
connection error). -/
inductive CallResult where
  | response (status : Nat) (body : Option (List Nat))
  | failure

/-- Model of `CompanyCategorizer.categorize_company_with_ai`
(src/company_categorizer.py, lines 115-172).  The successive outcomes of the
remote endpoint are supplied as the list `calls`, one entry consumed per
HTTP request; an exhausted list behaves like a raised request exception.
Guard: missing credential, empty company or `N/A` returns `Unknown`.  A 429
status sleeps and re-enters the function (consuming the next outcome); any
other non-ok status (`response.ok` is `status < 400`), a raised exception, a
failed body extraction or an empty trimmed body yields `Unknown`; otherwise
the trimmed body is returned.  The job title only enters the prompt text, so
it does not influence the result beyond the oracle `calls`. -/
def categorize_company_with_ai (api_key job_title company_name : List Nat) :
    List CallResult → List Nat
  | [] => unknownLabel
  | c :: rest =>
    if api_key = [] ∨ company_name = [] ∨ company_name = naStr then unknownLabel
    else
      match c with
      | .failure => unknownLabel
      | .response status body =>
        if status = 429 then categorize_company_with_ai api_key job_title company_name rest
        else if 400 ≤ status then unknownLabel
        else
          match body with
          | none => unknownLabel
          | some content => if trim content = [] then unknownLabel else trim content

/-- JobRecord: mapping with the fields written by the extractor plus the
Business Nature label added by the classifier (`none` while absent).  The
source reads `Job Title` and `Company` with `.get(_, '')`, so an absent
field is identified with the empty string. -/
structure Job where
  jobTitle : List Nat
  company : List Nat
  location : List Nat
  salary : List Nat
  jobURL : List Nat
  businessNature : Option (List Nat)

/-- Lookup in the category cache (a Python dict keyed by normalized name). -/
def lookupCache : List (List Nat × List Nat) → List Nat → Option (List Nat)
  | [], _ => none
  | (k, v) :: rest, key => if k = key then some v else lookupCache rest key

/-- State threaded through one batch run: the `company_categories` cache,
plus the list of normalized keys for which the remote classifier was
invoked, in invocation order (instrumentation corresponding to the
`api_calls` counter of the source). -/
structure RunState where
  cache : List (List Nat × List Nat)
  aiKeys : List (List Nat)

/-- One iteration of the loop body of `categorize_companies`
(src/company_categorizer.py, lines 230-265).  `ai` abstracts
`categorize_company_with_ai` as a function of the job title and raw company
name; it is total, which is justified by the separate result that the
remote classifier never raises.  Branches in source order: empty or `N/A`
company is labelled `Unknown` without touching the cache; a cached
normalized key copies the cached label; a regex match stores and assigns
its label; otherwise with a credential the remote label (whatever it is) is
stored and assigned, and without a credential `Unknown` is stored and
assigned. -/
def processJob (api_key : List Nat) (ai : List Nat → List Nat → List Nat)
    (st : RunState) (job : Job) : Job × RunState :=
  if job.company ≠ [] ∧ job.company ≠ naStr then
    let key := normalize_company_name job.company
    match lookupCache st.cache key with
    | some lab => ({ job with businessNature := some lab }, st)
    | none =>
      match categorize_with_regex job.company with
      | some lab =>
        ({ job with businessNature := some lab }, { st with cache := (key, lab) :: st.cache })
      | none =>
        if api_key ≠ [] then
          let lab := ai job.jobTitle job.company
          ({ job with businessNature := some lab },
            { cache := (key, lab) :: st.cache, aiKeys := st.aiKeys ++ [key] })
        else
          ({ job with businessNature := some unknownLabel },
            { st with cache := (key, unknownLabel) :: st.cache })
  else ({ job with businessNature := some unknownLabel }, st)

/-- Sequential processing of the whole batch, threading the run state. -/
def runCategorize (api_key : List Nat) (ai : List Nat → List Nat → List Nat) :
    List Job → RunState → List Job × RunState
  | [], st => ([], st)
  | j :: js, st =>
    let p := processJob api_key ai st j
    let q := runCategorize api_key ai js p.2
    (p.1 :: q.1, q.2)

/-- Model of `CompanyCategorizer.categorize_companies`
(src/company_categorizer.py, lines 208-270): every record of the batch is
processed in input order starting from an empty cache, and the annotated
batch is returned.  (An empty batch is returned unchanged, as by the early
return of the source.) -/
def categorize_companies (api_key : List Nat) (ai : List Nat → List Nat → List Nat)
    (jobs_data : List Job) : List Job :=
  (runCategorize api_key ai jobs_data ⟨[], []⟩).1

/-- Normalized keys for which the remote classifier is invoked during one
batch run, in invocation order. -/
def aiTrace (api_key : List Nat) (ai : List Nat → List Nat → List Nat)
    (jobs_data : List Job) : List (List Nat) :=
  (runCategorize api_key ai jobs_data ⟨[], []⟩).2.aiKeys

/-- Record constructor used by concrete examples. -/
def mkJob (title company : String) : Job :=
  { jobTitle := encode title, company := encode company, location := encode "Sydney NSW",
    salary := encode "N/A", jobURL := encode "https://example.org/job", businessNature := none }

/-- Each loop iteration annotates exactly the processed record, writing only
the Business Nature field. -/
theorem processJob_shape (api_key : List Nat) (ai : List Nat → List Nat → List Nat)
    (st : RunState) (j : Job) :
    ∃ lab, (processJob api_key ai st j).1 = { j with businessNature := some lab } := by
  by_cases hc : j.company ≠ [] ∧ j.company ≠ naStr
  · cases hl : lookupCache st.cache (normalize_company_name j.company) with
    | some lab => exact ⟨lab, by simp [processJob, hc, hl]⟩
    | none =>
      cases hr : categorize_with_regex j.company with
      | some lab => exact ⟨lab, by simp [processJob, hc, hl, hr]⟩
      | none =>
        by_cases hk : api_key ≠ []
        · exact ⟨ai j.jobTitle j.company, by simp [processJob, hc, hl, hr, hk]⟩
        · exact ⟨unknownLabel, by simp [processJob, hc, hl, hr, hk]⟩
  · exact ⟨unknownLabel, by simp [processJob, hc]⟩

/-- Records with an empty or `N/A` company are labelled `Unknown` directly
and leave the run state untouched. -/
theorem processJob_bad (api_key : List Nat) (ai : List Nat → List Nat → List Nat)
    (st : RunState) (j : Job) (h : j.company = [] ∨ j.company = naStr) :
    (processJob api_key ai st j).1 = { j with businessNature := some unknownLabel } ∧
    (processJob api_key ai st j).2 = st := by
  have hng : ¬(j.company ≠ [] ∧ j.company ≠ naStr) := by
    rcases h with h | h <;> simp [h]
  rw [processJob, if_neg hng]
  exact ⟨rfl, rfl⟩

/-- The batch run produces one output record per input record. -/
theorem runCategorize_length (api_key : List Nat) (ai : List Nat → List Nat → List Nat) :
    ∀ (js : List Job) (st : RunState),
      ((runCategorize api_key ai js st).1).length = js.length := by
  intro js
  induction js with
  | nil => intro st; rfl
  | cons j js ih =>
    intro st
    simp [runCategorize, ih]

/-- Indexwise description of the batch output: each output record is its
input record with some Business Nature label filled in, `Unknown` when the
company is empty or `N/A`. -/
theorem runCategorize_get (api_key : List Nat) (ai : List Nat → List Nat → List Nat) :
    ∀ (js : List Job) (st : RunState) (i : Nat) (jb : Job), js[i]? = some jb →
      ∃ lab, ((runCategorize api_key ai js st).1)[i]? =
          some { jb with businessNature := some lab } ∧
        ((jb.company = [] ∨ jb.company = naStr) → lab = unknownLabel) := by
  intro js
  induction js with
  | nil => intro st i jb h; simp at h
  | cons j js ih =>
    intro st i jb h
    match i with
    | 0 =>
      simp only [List.getElem?_cons_zero, Option.some.injEq] at h
      subst h
      by_cases hb : j.company = [] ∨ j.company = naStr
      · exact ⟨unknownLabel, by
          simp [runCategorize, (processJob_bad api_key ai st j hb).1], fun _ => rfl⟩
      · obtain ⟨lab, hl⟩ := processJob_shape api_key ai st j
        exact ⟨lab, by simp [runCategorize, hl], fun hx => absurd hx hb⟩
    | n + 1 =>
      simp only [List.getElem?_cons_succ] at h
      obtain ⟨lab, h1, h2⟩ := ih (processJob api_key ai st j).2 n jb h
      exact ⟨lab, by simpa [runCategorize] using h1, h2⟩

/-- C6: every input record receives exactly one Business Nature label
(records with empty or `N/A` company receive `Unknown`), and since the loop
body is a total function of the record and the run state, no per-record
outcome can abort the processing of the remaining records: the output batch
always has one labelled record per input record. -/
theorem c6_total_labelling (api_key : List Nat) (ai : List Nat → List Nat → List Nat)
    (jobs : List Job) :
    (categorize_companies api_key ai jobs).length = jobs.length ∧
    ∀ (i : Nat) (jb : Job), jobs[i]? = some jb → ∃ lab,
      (categorize_companies api_key ai jobs)[i]? =
        some { jb with businessNature := some lab } ∧
      ((jb.company = [] ∨ jb.company = naStr) → lab = unknownLabel) := by
  refine ⟨runCategorize_length api_key ai jobs ⟨[], []⟩, ?_⟩
  intro i jb h
  exact runCategorize_get api_key ai jobs ⟨[], []⟩ i jb h

/-- C6 witness: the guarantee applied to a concrete batch containing an
`N/A` record. -/
theorem c6_total_labelling_witness :
    ∃ lab, (categorize_companies [] (fun _ _ => unknownLabel)
        [mkJob "Developer" "N/A"])[0]? =
      some { mkJob "Developer" "N/A" with businessNature := some lab } ∧
      (((mkJob "Developer" "N/A").company = [] ∨ (mkJob "Developer" "N/A").company = naStr) →
        lab = unknownLabel) :=
  (c6_total_labelling [] (fun _ _ => unknownLabel) [mkJob "Developer" "N/A"]).2 0
    (mkJob "Developer" "N/A") rfl

/-- C10: the classifier writes only the Business Nature field: the output
batch has the same length and order, and every other field of every record
(Job Title, Company, Location, Salary, Job URL) is unchanged. -/
theorem c10_frame (api_key : List Nat) (ai : List Nat → List Nat → List Nat)
    (jobs : List Job) :
    (categorize_companies api_key ai jobs).length = jobs.length ∧
    ∀ (i : Nat) (jb : Job), jobs[i]? = some jb → ∃ o,
      (categorize_companies api_key ai jobs)[i]? = some o ∧
      o.jobTitle = jb.jobTitle ∧ o.company = jb.company ∧ o.location = jb.location ∧
      o.salary = jb.salary ∧ o.jobURL = jb.jobURL := by
  refine ⟨runCategorize_length api_key ai jobs ⟨[], []⟩, ?_⟩
  intro i jb h
  obtain ⟨lab, h1, _⟩ := runCategorize_get api_key ai jobs ⟨[], []⟩ i jb h
  exact ⟨{ jb with businessNature := some lab }, h1, rfl, rfl, rfl, rfl, rfl⟩

/-- C10 witness: the frame property applied to a concrete batch. -/
theorem c10_frame_witness :
    ∃ o, (categorize_companies (encode "key") (fun _ _ => encode "Retail")
        [mkJob "Developer" "Acme Ltd"])[0]? = some o ∧
      o.jobTitle = (mkJob "Developer" "Acme Ltd").jobTitle ∧
      o.company = (mkJob "Developer" "Acme Ltd").company ∧
      o.location = (mkJob "Developer" "Acme Ltd").location ∧
      o.salary = (mkJob "Developer" "Acme Ltd").salary ∧
      o.jobURL = (mkJob "Developer" "Acme Ltd").jobURL :=
  (c10_frame (encode "key") (fun _ _ => encode "Retail") [mkJob "Developer" "Acme Ltd"]).2 0
    (mkJob "Developer" "Acme Ltd") rfl

/-- With no credential the loop body never consults the remote classifier,
so its result does not depend on it. -/
theorem processJob_no_key (ai g : List Nat → List Nat → List Nat) (st : RunState) (j : Job) :
    processJob [] ai st j = processJob [] g st j := by
  simp [processJob]

/-- With no credential the whole batch run does not depend on the remote
classifier. -/
theorem runCategorize_no_key (ai g : List Nat → List Nat → List Nat) :
    ∀ (js : List Job) (st : RunState),
      runCategorize [] ai js st = runCategorize [] g js st := by
  intro js
  induction js with
  | nil => intro st; rfl
  | cons j js ih =>
    intro st
    simp only [runCategorize]
    rw [processJob_no_key ai g st j, ih]

/-- With no credential the loop body never records a remote invocation. -/
theorem processJob_no_key_aiKeys (ai : List Nat → List Nat → List Nat)
    (st : RunState) (j : Job) : (processJob [] ai st j).2.aiKeys = st.aiKeys := by
  by_cases hc : j.company ≠ [] ∧ j.company ≠ naStr
  · cases hl : lookupCache st.cache (normalize_company_name j.company) with
    | some lab => simp [processJob, hc, hl]
    | none =>
      cases hr : categorize_with_regex j.company with
      | some lab => simp [processJob, hc, hl, hr]
      | none => simp [processJob, hc, hl, hr]
  · simp [processJob, hc]

/-- With no credential the batch run never records a remote invocation. -/
theorem runCategorize_no_key_aiKeys (ai : List Nat → List Nat → List Nat) :
    ∀ (js : List Job) (st : RunState),
      (runCategorize [] ai js st).2.aiKeys = st.aiKeys := by
  intro js
  induction js with
  | nil => intro st; rfl
  | cons j js ih =>
    intro st
    simp only [runCategorize]
    rw [ih]
    exact processJob_no_key_aiKeys ai st j

/-- With no credential, every cache association either survives from the
starting state or records a processed record's normalized key with its
regex label, or `Unknown` when its regex missed. -/
theorem processJob_no_key_cache_values (ai : List Nat → List Nat → List Nat)
    (st : RunState) (j : Job) (k v : List Nat)
    (h : lookupCache (processJob [] ai st j).2.cache k = some v) :
    lookupCache st.cache k = some v ∨
    ((j.company ≠ [] ∧ j.company ≠ naStr) ∧ normalize_company_name j.company = k ∧
      (categorize_with_regex j.company = some v ∨
        (categorize_with_regex j.company = none ∧ v = unknownLabel))) := by
  by_cases hc : j.company ≠ [] ∧ j.company ≠ naStr
  · cases hl : lookupCache st.cache (normalize_company_name j.company) with
    | some lab => exact Or.inl (by simpa [processJob, hc, hl] using h)
    | none =>
      cases hr : categorize_with_regex j.company with
      | some lab =>
        simp only [processJob, hc, hl, hr] at h
        simp only [if_pos hc] at h
        simp only [lookupCache] at h
        by_cases he : normalize_company_name j.company = k
        · rw [if_pos he] at h
          obtain rfl : lab = v := by cases h; rfl
          exact Or.inr ⟨hc, he, Or.inl rfl⟩
        · rw [if_neg he] at h
          exact Or.inl h
      | none =>
        simp only [processJob, hc, hl, hr] at h
        simp only [if_pos hc] at h
        simp only [lookupCache] at h
        by_cases he : normalize_company_name j.company = k
        · rw [if_pos he] at h
          obtain rfl : unknownLabel = v := by cases h; rfl
          exact Or.inr ⟨hc, he, Or.inr ⟨rfl, rfl⟩⟩
        · rw [if_neg he] at h
          exact Or.inl h
  · exact Or.inl (by simpa [processJob, hc] using h)

/-- With no credential, a regex-unmatched record is labelled `Unknown`
unless its normalized key was already cached: by a labelled association of
the starting state (described by `C`), or by an earlier record of the batch
whose regex matched. -/
theorem c8_run (ai : List Nat → List Nat → List Nat) :
    ∀ (js : List Job) (st : RunState) (C : List Nat → List Nat → Prop),
      (∀ k v, lookupCache st.cache k = some v → v = unknownLabel ∨ C k v) →
      ∀ (i : Nat) (jb : Job), js[i]? = some jb → jb.company ≠ [] → jb.company ≠ naStr →
        categorize_with_regex jb.company = none →
        ((runCategorize [] ai js st).1[i]?.bind Job.businessNature = some unknownLabel ∨
          (∃ v, C (normalize_company_name jb.company) v ∧
            (runCategorize [] ai js st).1[i]?.bind Job.businessNature = some v) ∨
          ∃ jc ∈ js.take i, (jc.company ≠ [] ∧ jc.company ≠ naStr) ∧
            normalize_company_name jc.company = normalize_company_name jb.company ∧
            ∃ v, categorize_with_regex jc.company = some v ∧
              (runCategorize [] ai js st).1[i]?.bind Job.businessNature = some v) := by
  intro js
  induction js with
  | nil => intro st C hst i jb h; simp at h
  | cons j js ih =>
    intro st C hst i jb h h1 h2 hr
    match i with
    | 0 =>
      simp only [List.getElem?_cons_zero, Option.some.injEq] at h
      subst h
      have hcgood : j.company ≠ [] ∧ j.company ≠ naStr := ⟨h1, h2⟩
      cases hl : lookupCache st.cache (normalize_company_name j.company) with
      | some lab =>
        have hbn : (runCategorize [] ai (j :: js) st).1[0]?.bind Job.businessNature =
            some lab := by
          simp [runCategorize, processJob, hcgood, hl]
        rcases hst _ _ hl with hu | hC
        · exact Or.inl (by rw [hbn, hu])
        · exact Or.inr (Or.inl ⟨lab, hC, hbn⟩)
      | none =>
        refine Or.inl ?_
        simp [runCategorize, processJob, hcgood, hl, hr]
    | n + 1 =>
      simp only [List.getElem?_cons_succ] at h
      have hst2v : ∀ k v, lookupCache (processJob [] ai st j).2.cache k = some v →
          v = unknownLabel ∨ (C k v ∨ ((j.company ≠ [] ∧ j.company ≠ naStr) ∧
            normalize_company_name j.company = k ∧ categorize_with_regex j.company = some v)) := by
        intro k v hv
        rcases processJob_no_key_cache_values ai st j k v hv with hold | ⟨hg, hk, hcase⟩
        · rcases hst _ _ hold with hu | hC
          · exact Or.inl hu
          · exact Or.inr (Or.inl hC)
        · rcases hcase with hsome | ⟨_, hu⟩
          · exact Or.inr (Or.inr ⟨hg, hk, hsome⟩)
          · exact Or.inl hu
      have hrec := ih (processJob [] ai st j).2
        (fun k v => C k v ∨ ((j.company ≠ [] ∧ j.company ≠ naStr) ∧
          normalize_company_name j.company = k ∧ categorize_with_regex j.company = some v))
        hst2v n jb h h1 h2 hr
      have hidx : (runCategorize [] ai (j :: js) st).1[n + 1]? =
          (runCategorize [] ai js (processJob [] ai st j).2).1[n]? := by
        simp [runCategorize]
      rcases hrec with hL | ⟨v, hCv, hbn⟩ | ⟨jc, hjc, hgood, hkey, v, hv, hbn⟩
      · exact Or.inl (by rw [hidx]; exact hL)
      · rcases hCv with hC | ⟨hg, hk, hsome⟩
        · exact Or.inr (Or.inl ⟨v, hC, by rw [hidx]; exact hbn⟩)
        · refine Or.inr (Or.inr ⟨j, ?_, hg, hk, v, hsome, by rw [hidx]; exact hbn⟩)
          simp [List.take_succ_cons]
      · refine Or.inr (Or.inr ⟨jc, ?_, hgood, hkey, v, hv, by rw [hidx]; exact hbn⟩)
        rw [List.take_succ_cons]
        exact List.mem_cons_of_mem j hjc

/-- C8 counterexample: the claim fails as stated.  With no credential, the
regex-unmatched name `S.m.i.t.h R.e.c.r.u.i.t.m.e.n.t Ltd` does not resolve
to `Unknown`: its normalized key `smith recruitment` was already cached by
the earlier regex-matched record `Smith Recruitment`, so it inherits
`Recruitment & Staffing` from the cache. -/
theorem c8_counterexample :
    categorize_with_regex (encode "S.m.i.t.h R.e.c.r.u.i.t.m.e.n.t Ltd") = none ∧
    (categorize_companies [] (fun _ _ => unknownLabel)
        [mkJob "Clerk" "Smith Recruitment",
         mkJob "Clerk" "S.m.i.t.h R.e.c.r.u.i.t.m.e.n.t Ltd"]).map Job.businessNature =
      [some (encode "Recruitment & Staffing"), some (encode "Recruitment & Staffing")] ∧
    encode "Recruitment & Staffing" ≠ unknownLabel := by
  exact ⟨by decide, by decide, by decide⟩

/-- C8 amended: with no credential configured, no record is ever labelled
via the remote path (the remote-invocation trace is empty for every batch
and every remote behaviour); every regex-unmatched record resolves to
`Unknown` unless an earlier record of the batch shares its normalized key
and was regex-matched, in which case it inherits that record's regex label
from the cache; and the batch Queensland Health, Unknown Widgets Co, N/A
yields the labels Healthcare Services, Unknown, Unknown in order. -/
theorem c8_amended (ai : List Nat → List Nat → List Nat) (jobs : List Job) :
    aiTrace [] ai jobs = [] ∧
    (∀ (i : Nat) (jb : Job), jobs[i]? = some jb → jb.company ≠ [] → jb.company ≠ naStr →
      categorize_with_regex jb.company = none →
      ((categorize_companies [] ai jobs)[i]?.bind Job.businessNature = some unknownLabel ∨
        ∃ jc ∈ jobs.take i, (jc.company ≠ [] ∧ jc.company ≠ naStr) ∧
          normalize_company_name jc.company = normalize_company_name jb.company ∧
          ∃ v, categorize_with_regex jc.company = some v ∧
            (categorize_companies [] ai jobs)[i]?.bind Job.businessNature = some v)) ∧
    (categorize_companies [] ai
        [mkJob "Nurse" "Queensland Health", mkJob "Clerk" "Unknown Widgets Co",
         mkJob "Developer" "N/A"]).map Job.businessNature =
      [some (encode "Healthcare Services"), some unknownLabel, some unknownLabel] := by
  refine ⟨runCategorize_no_key_aiKeys ai jobs ⟨[], []⟩, ?_, ?_⟩
  · intro i jb h h1 h2 hr
    have hrec := c8_run ai jobs ⟨[], []⟩ (fun _ _ => False)
      (fun k v hv => Option.noConfusion hv) i jb h h1 h2 hr
    simp only [categorize_companies]
    rcases hrec with hL | ⟨v, hF, _⟩ | hR
    · exact Or.inl hL
    · exact hF.elim
    · exact Or.inr hR
  · rw [categorize_companies, runCategorize_no_key ai (fun _ _ => unknownLabel)]
    decide

/-- C8 witness: the amended guarantee applied to a one-record batch whose
name is regex-unmatched and has no earlier record: it resolves to
`Unknown`. -/
theorem c8_amended_witness :
    (categorize_companies [] (fun _ _ => unknownLabel)
        [mkJob "Clerk" "Unknown Widgets Co"])[0]?.bind Job.businessNature =
      some unknownLabel ∨
    ∃ jc ∈ ([mkJob "Clerk" "Unknown Widgets Co"].take 0),
      (jc.company ≠ [] ∧ jc.company ≠ naStr) ∧
      normalize_company_name jc.company =
        normalize_company_name (mkJob "Clerk" "Unknown Widgets Co").company ∧
      ∃ v, categorize_with_regex jc.company = some v ∧
        (categorize_companies [] (fun _ _ => unknownLabel)
            [mkJob "Clerk" "Unknown Widgets Co"])[0]?.bind Job.businessNature = some v :=
  (c8_amended (fun _ _ => unknownLabel) [mkJob "Clerk" "Unknown Widgets Co"]).2.1 0
    (mkJob "Clerk" "Unknown Widgets Co") rfl (by decide) (by decide) (by decide)

/-- Cache entries are never overwritten: the loop body only prepends a key
that was absent, so existing associations survive each iteration. -/
theorem processJob_cache_mono (api_key : List Nat) (ai : List Nat → List Nat → List Nat)
    (st : RunState) (j : Job) (key v : List Nat)
    (h : lookupCache st.cache key = some v) :
    lookupCache (processJob api_key ai st j).2.cache key = some v := by
  by_cases hc : j.company ≠ [] ∧ j.company ≠ naStr
  · cases hl : lookupCache st.cache (normalize_company_name j.company) with
    | some lab => simpa [processJob, hc, hl] using h
    | none =>
      have hne : normalize_company_name j.company ≠ key := by
        intro he
        rw [he, h] at hl
        cases hl
      cases hr : categorize_with_regex j.company with
      | some lab => simpa [processJob, hc, hl, hr, lookupCache, hne] using h
      | none =>
        by_cases hk : api_key ≠ []
        · simpa [processJob, hc, hl, hr, hk, lookupCache, hne] using h
        · simpa [processJob, hc, hl, hr, hk, lookupCache, hne] using h
  · simpa [processJob, hc] using h

/-- Cache entries survive the rest of the batch run. -/
theorem runCategorize_cache_mono (api_key : List Nat) (ai : List Nat → List Nat → List Nat) :
    ∀ (js : List Job) (st : RunState) (key v : List Nat),
      lookupCache st.cache key = some v →
      lookupCache (runCategorize api_key ai js st).2.cache key = some v := by
  intro js
  induction js with
  | nil => intro st key v h; exact h
  | cons j js ih =>
    intro st key v h
    simpa [runCategorize] using
      ih (processJob api_key ai st j).2 key v (processJob_cache_mono api_key ai st j key v h)

/-- For a record with a usable company name, the label assigned by the loop
body is exactly the association its normalized key has in the cache right
after the iteration. -/
theorem processJob_good (api_key : List Nat) (ai : List Nat → List Nat → List Nat)
    (st : RunState) (j : Job) (hc : j.company ≠ [] ∧ j.company ≠ naStr) :
    ∃ v, (processJob api_key ai st j).1.businessNature = some v ∧
      lookupCache (processJob api_key ai st j).2.cache (normalize_company_name j.company) =
        some v := by
  cases hl : lookupCache st.cache (normalize_company_name j.company) with
  | some lab => exact ⟨lab, by simp [processJob, hc, hl], by simp [processJob, hc, hl, hl]⟩
  | none =>
    cases hr : categorize_with_regex j.company with
    | some lab => exact ⟨lab, by simp [processJob, hc, hl, hr], by
        simp [processJob, hc, hl, hr, lookupCache]⟩
    | none =>
      by_cases hk : api_key ≠ []
      · exact ⟨ai j.jobTitle j.company, by simp [processJob, hc, hl, hr, hk], by
          simp [processJob, hc, hl, hr, hk, lookupCache]⟩
      · exact ⟨unknownLabel, by simp [processJob, hc, hl, hr, hk], by
          simp [processJob, hc, hl, hr, hk, lookupCache]⟩

/-- Each output label of a record with a usable company name agrees with the
final cache association of its normalized key. -/
theorem runCategorize_label (api_key : List Nat) (ai : List Nat → List Nat → List Nat) :
    ∀ (js : List Job) (st : RunState) (i : Nat) (jb : Job), js[i]? = some jb →
      jb.company ≠ [] → jb.company ≠ naStr →
      ∃ v, (((runCategorize api_key ai js st).1)[i]?.bind Job.businessNature) = some v ∧
        lookupCache (runCategorize api_key ai js st).2.cache
          (normalize_company_name jb.company) = some v := by
  intro js
  induction js with
  | nil => intro st i jb h; simp at h
  | cons j js ih =>
    intro st i jb h h1 h2
    match i with
    | 0 =>
      simp only [List.getElem?_cons_zero, Option.some.injEq] at h
      subst h
      obtain ⟨v, hv1, hv2⟩ := processJob_good api_key ai st j ⟨h1, h2⟩
      refine ⟨v, ?_, ?_⟩
      · simp [runCategorize, hv1]
      · simpa [runCategorize] using
          runCategorize_cache_mono api_key ai js (processJob api_key ai st j).2 _ v hv2
    | n + 1 =>
      simp only [List.getElem?_cons_succ] at h
      obtain ⟨v, hv1, hv2⟩ := ih (processJob api_key ai st j).2 n jb h h1 h2
      exact ⟨v, by simpa [runCategorize] using hv1, by simpa [runCategorize] using hv2⟩

/-- Every key in the remote-invocation trace has a cache association, and the
trace has no duplicates; both facts are preserved by each iteration. -/
theorem processJob_inv (api_key : List Nat) (ai : List Nat → List Nat → List Nat)
    (st : RunState) (j : Job) (h1 : st.aiKeys.Nodup)
    (h2 : ∀ x ∈ st.aiKeys, (lookupCache st.cache x).isSome) :
    (processJob api_key ai st j).2.aiKeys.Nodup ∧
      ∀ x ∈ (processJob api_key ai st j).2.aiKeys,
        (lookupCache (processJob api_key ai st j).2.cache x).isSome := by
  by_cases hc : j.company ≠ [] ∧ j.company ≠ naStr
  · cases hl : lookupCache st.cache (normalize_company_name j.company) with
    | some lab => exact ⟨by simpa [processJob, hc, hl] using h1, by
        simpa [processJob, hc, hl] using h2⟩
    | none =>
      have hmem : normalize_company_name j.company ∉ st.aiKeys := by
        intro hx
        have := h2 _ hx
        rw [hl] at this
        cases this
      have hkeep : ∀ x ∈ st.aiKeys,
          (lookupCache ((normalize_company_name j.company, unknownLabel) :: st.cache) x).isSome ∧
          ∀ lab, (lookupCache ((normalize_company_name j.company, lab) :: st.cache) x).isSome := by
        intro x hx
        constructor
        · by_cases he : normalize_company_name j.company = x
          · simp [lookupCache, he]
          · simpa [lookupCache, he] using h2 x hx
        · intro lab
          by_cases he : normalize_company_name j.company = x
          · simp [lookupCache, he]
          · simpa [lookupCache, he] using h2 x hx
      cases hr : categorize_with_regex j.company with
      | some lab =>
        refine ⟨by simpa [processJob, hc, hl, hr] using h1, ?_⟩
        intro x hx
        simp only [processJob, hc, hl, hr] at hx ⊢
        simp only [if_pos hc] at hx ⊢
        exact (hkeep x (by simpa using hx)).2 lab
      | none =>
        by_cases hk : api_key ≠ []
        · constructor
          · simp only [processJob, hc, hl, hr, hk]
            simp only [if_pos hc, if_pos hk]
            simp [List.nodup_append, h1, hmem]
          · intro x hx
            simp only [processJob, hc, hl, hr, hk] at hx ⊢
            simp only [if_pos hc, if_pos hk] at hx ⊢
            rcases (by simpa using hx :
                x ∈ st.aiKeys ∨ x = normalize_company_name j.company) with hx' | hx'
            · exact (hkeep x hx').2 _
            · simp [lookupCache, hx']
        · refine ⟨by simpa [processJob, hc, hl, hr, hk] using h1, ?_⟩
          intro x hx
          simp only [processJob, hc, hl, hr, hk] at hx ⊢
          simp only [if_pos hc] at hx ⊢
          exact (hkeep x (by simpa using hx)).1
  · exact ⟨by simpa [processJob, hc] using h1, by simpa [processJob, hc] using h2⟩

/-- The trace invariant holds at the end of the batch run. -/
theorem runCategorize_inv (api_key : List Nat) (ai : List Nat → List Nat → List Nat) :
    ∀ (js : List Job) (st : RunState), st.aiKeys.Nodup →
      (∀ x ∈ st.aiKeys, (lookupCache st.cache x).isSome) →
      (runCategorize api_key ai js st).2.aiKeys.Nodup := by
  intro js
  induction js with
  | nil => intro st h1 _; exact h1
  | cons j js ih =>
    intro st h1 h2
    obtain ⟨h1', h2'⟩ := processJob_inv api_key ai st j h1 h2
    simpa [runCategorize] using ih (processJob api_key ai st j).2 h1' h2'

/-- C1 counterexample: the claim fails as stated.  The company names
`The Co` and the empty string normalize to the same key (the empty string),
yet with a credential and a remote classifier answering `Widgets` the first
record is labelled `Widgets` while the second, short-circuited by the
empty-company guard, is labelled `Unknown`. -/
theorem c1_counterexample :
    normalize_company_name (encode "The Co") = normalize_company_name [] ∧
    (categorize_companies (encode "key") (fun _ _ => encode "Widgets")
        [mkJob "Developer" "The Co", mkJob "Developer" ""]).map Job.businessNature =
      [some (encode "Widgets"), some unknownLabel] ∧
    encode "Widgets" ≠ unknownLabel := by
  exact ⟨by decide, by decide, by decide⟩

/-- C1 amended: within one batch run the remote classifier is invoked at
most once per distinct normalized company name (the invocation trace has no
duplicate keys); and any two records whose company names are nonempty, not
`N/A`, and normalize to the same key receive the identical Business Nature
label.  (Records with empty or `N/A` company bypass the cache and are
labelled `Unknown` directly, so they are exempt from the identical-label
guarantee, as the counterexample forces.) -/
theorem c1_amended (api_key : List Nat) (ai : List Nat → List Nat → List Nat)
    (jobs : List Job) :
    (aiTrace api_key ai jobs).Nodup ∧
    ∀ (i j : Nat) (ji jj : Job), jobs[i]? = some ji → jobs[j]? = some jj →
      ji.company ≠ [] → ji.company ≠ naStr → jj.company ≠ [] → jj.company ≠ naStr →
      normalize_company_name ji.company = normalize_company_name jj.company →
      ((categorize_companies api_key ai jobs)[i]?.bind Job.businessNature) =
        ((categorize_companies api_key ai jobs)[j]?.bind Job.businessNature) := by
  constructor
  · exact runCategorize_inv api_key ai jobs ⟨[], []⟩ List.nodup_nil (by simp)
  · intro i j ji jj hi hj hi1 hi2 hj1 hj2 hkey
    obtain ⟨v, hv1, hv2⟩ := runCategorize_label api_key ai jobs ⟨[], []⟩ i ji hi hi1 hi2
    obtain ⟨w, hw1, hw2⟩ := runCategorize_label api_key ai jobs ⟨[], []⟩ j jj hj hj1 hj2
    rw [hkey] at hv2
    rw [hv2] at hw2
    obtain rfl : v = w := by cases hw2; rfl
    simp only [categorize_companies]
    rw [hv1, hw1]

/-- C1 witness: the amended guarantee applied to the batch `Acme Ltd`,
`ACME LIMITED` of the specification, whose names normalize to the same key
`acme`; both records receive the identical label. -/
theorem c1_amended_witness :
    ((categorize_companies (encode "key") (fun _ _ => encode "Industrial Supplies")
        [mkJob "Developer" "Acme Ltd", mkJob "Clerk" "ACME LIMITED"])[0]?.bind
      Job.businessNature) =
      ((categorize_companies (encode "key") (fun _ _ => encode "Industrial Supplies")
        [mkJob "Developer" "Acme Ltd", mkJob "Clerk" "ACME LIMITED"])[1]?.bind
      Job.businessNature) :=
  (c1_amended (encode "key") (fun _ _ => encode "Industrial Supplies")
      [mkJob "Developer" "Acme Ltd", mkJob "Clerk" "ACME LIMITED"]).2 0 1
    (mkJob "Developer" "Acme Ltd") (mkJob "Clerk" "ACME LIMITED") rfl rfl
    (by decide) (by decide) (by decide) (by decide) (by decide)

/-- Lowercasing never produces an uppercase letter. -/
theorem lowerChar_not_upper (n : Nat) : ¬(65 ≤ lowerChar n ∧ lowerChar n ≤ 90) := by
  unfold lowerChar
  split <;> omega

/-- Lowercasing fixes characters that are not uppercase letters. -/
theorem lowerChar_fixed {n : Nat} (h : ¬(65 ≤ n ∧ n ≤ 90)) : lowerChar n = n := if_neg h

/-- Unfolding of the scanner of `\b(the\s+)` at a position that does not
carry the three characters `the`. -/
theorem removeTheFrom_generic (skip bdry : Bool) (c : Nat) (r : List Nat)
    (hne : ∀ rest, c = 116 → r = 104 :: 101 :: rest → False) :
    removeTheFrom skip bdry (c :: r) =
      if skip && isSpace c then removeTheFrom true true r
      else c :: removeTheFrom false (!isWordChar c) r := by
  rw [removeTheFrom.eq_def]
  split
  · rename_i heq
    exact List.noConfusion heq
  · rename_i rest heq
    obtain ⟨h1, h2⟩ := List.cons.inj heq
    exact (hne rest h1 h2).elim
  · rename_i c' r' hne' heq
    obtain ⟨h1, h2⟩ := List.cons.inj heq
    subst h1
    subst h2
    rfl

/-- Unfolding of the scanner of `\b(the\s+)` at a position carrying `the`. -/
theorem removeTheFrom_deep (skip bdry : Bool) (rest : List Nat) :
    removeTheFrom skip bdry (116 :: 104 :: 101 :: rest) =
      if (skip || bdry) && headIsSpace rest then removeTheFrom true true rest
      else 116 :: 104 :: 101 :: removeTheFrom false false rest := rfl

/-- Unfolding of the no-match predicate at a position that does not carry
the three characters `the`. -/
theorem noThe_generic (bdry : Bool) (c : Nat) (r : List Nat)
    (hne : ∀ rest, c = 116 → r = 104 :: 101 :: rest → False) :
    noThe bdry (c :: r) = noThe (!isWordChar c) r := by
  rw [noThe.eq_def]
  split
  · rename_i heq
    exact List.noConfusion heq
  · rename_i rest heq
    obtain ⟨h1, h2⟩ := List.cons.inj heq
    exact (hne rest h1 h2).elim
  · rename_i c' r' hne' heq
    obtain ⟨h1, h2⟩ := List.cons.inj heq
    subst h1
    subst h2
    rfl

/-- Unfolding of the no-match predicate at a position carrying `the`. -/
theorem noThe_deep (bdry : Bool) (rest : List Nat) :
    noThe bdry (116 :: 104 :: 101 :: rest) =
      ((bdry = true → headIsSpace rest = false) ∧ noThe false rest) := rfl

/-- Characters of the left-trimmed string come from the string. -/
theorem mem_trimLeft {a : Nat} {s : List Nat} (h : a ∈ trimLeft s) : a ∈ s :=
  (List.dropWhile_sublist isSpace).subset h

/-- Characters of the right-trimmed string come from the string. -/
theorem mem_trimRight {a : Nat} : ∀ {s : List Nat}, a ∈ trimRight s → a ∈ s := by
  intro s
  induction s with
  | nil => exact fun h => h
  | cons c r ih =>
    intro h
    simp only [trimRight] at h
    by_cases hc : trimRight r = [] ∧ isSpace c
    · rw [if_pos hc] at h
      cases h
    · rw [if_neg hc] at h
      rcases List.mem_cons.mp h with h | h
      · exact h ▸ List.mem_cons_self c r
      · exact List.mem_cons_of_mem c (ih h)

/-- Characters of the trimmed string come from the string. -/
theorem mem_trim {a : Nat} {s : List Nat} (h : a ∈ trim s) : a ∈ s :=
  mem_trimLeft (mem_trimRight h)

/-- Characters of the collapsed string come from the string or are the
space 32. -/
theorem mem_collapseFrom {a : Nat} :
    ∀ {s : List Nat} {b : Bool}, a ∈ collapseFrom b s → a ∈ s ∨ a = 32 := by
  intro s
  induction s with
  | nil => intro b h; cases h
  | cons c r ih =>
    intro b h
    simp only [collapseFrom] at h
    by_cases hc : isSpace c
    · rw [if_pos hc] at h
      cases b with
      | true =>
        rcases ih h with h | h
        · exact Or.inl (List.mem_cons_of_mem c h)
        · exact Or.inr h
      | false =>
        rcases List.mem_cons.mp h with h | h
        · exact Or.inr h
        · rcases ih h with h | h
          · exact Or.inl (List.mem_cons_of_mem c h)
          · exact Or.inr h
    · rw [if_neg hc] at h
      rcases List.mem_cons.mp h with h | h
      · exact Or.inl (h ▸ List.mem_cons_self c r)
      · rcases ih h with h | h
        · exact Or.inl (List.mem_cons_of_mem c h)
        · exact Or.inr h

/-- Characters of the suffix-stripped string come from the string. -/
theorem mem_stripSuffixScan {a : Nat} :
    ∀ {s : List Nat} {b : Bool}, a ∈ stripSuffixScan b s → a ∈ s := by
  intro s
  induction s with
  | nil => intro b h; cases h
  | cons c r ih =>
    intro b h
    simp only [stripSuffixScan] at h
    by_cases hc : (b && suffixAlts.any fun alt => matchWordsEnd alt (c :: r)) = true
    · rw [if_pos hc] at h
      cases h
    · rw [if_neg hc] at h
      rcases List.mem_cons.mp h with h | h
      · exact h ▸ List.mem_cons_self c r
      · exact List.mem_cons_of_mem c (ih h)

/-- Characters of the `the`-removed string come from the string. -/
theorem mem_removeTheFrom {a : Nat} :
    ∀ (skip bdry : Bool) (s : List Nat), a ∈ removeTheFrom skip bdry s → a ∈ s := by
  intro skip bdry s
  induction skip, bdry, s using removeTheFrom.induct with
  | case1 skip bdry => exact fun h => h
  | case2 skip bdry rest hcond ih =>
    intro h
    rw [removeTheFrom_deep, if_pos hcond] at h
    exact List.mem_cons_of_mem 116 (List.mem_cons_of_mem 104 (List.mem_cons_of_mem 101 (ih h)))
  | case3 skip bdry rest hcond ih =>
    intro h
    rw [removeTheFrom_deep, if_neg hcond] at h
    rcases List.mem_cons.mp h with h | h
    · exact h ▸ List.mem_cons_self _ _
    · rcases List.mem_cons.mp h with h | h
      · exact List.mem_cons_of_mem _ (h ▸ List.mem_cons_self _ _)
      · rcases List.mem_cons.mp h with h | h
        · exact List.mem_cons_of_mem _ (List.mem_cons_of_mem _ (h ▸ List.mem_cons_self _ _))
        · exact List.mem_cons_of_mem _
            (List.mem_cons_of_mem _ (List.mem_cons_of_mem _ (ih h)))
  | case4 skip bdry c r hne hcond ih =>
    intro h
    rw [removeTheFrom_generic skip bdry c r hne, if_pos hcond] at h
    exact List.mem_cons_of_mem c (ih h)
  | case5 skip bdry c r hne hcond ih =>
    intro h
    rw [removeTheFrom_generic skip bdry c r hne, if_neg hcond] at h
    rcases List.mem_cons.mp h with h | h
    · exact h ▸ List.mem_cons_self c r
    · exact List.mem_cons_of_mem c (ih h)

/-- Left-trimming leaves no leading whitespace. -/
theorem trimLeft_headIsSpace (s : List Nat) : headIsSpace (trimLeft s) = false := by
  induction s with
  | nil => rfl
  | cons c r ih =>
    by_cases hc : isSpace c
    · rw [trimLeft, List.dropWhile_cons_of_pos hc]
      exact ih
    · rw [trimLeft, List.dropWhile_cons_of_neg hc]
      simpa [headIsSpace] using hc

/-- A string with no leading whitespace is fixed by left-trimming. -/
theorem trimLeft_fixed : ∀ {s : List Nat}, headIsSpace s = false → trimLeft s = s := by
  intro s h
  cases s with
  | nil => rfl
  | cons c r =>
    rw [trimLeft, List.dropWhile_cons_of_neg]
    simpa [headIsSpace] using h

/-- Right-trimming either empties a nonempty string or keeps its head. -/
theorem trimRight_shape (c : Nat) (r : List Nat) :
    trimRight (c :: r) = [] ∨ trimRight (c :: r) = c :: trimRight r := by
  simp only [trimRight]
  split
  · exact Or.inl rfl
  · exact Or.inr rfl

/-- Right-trimming preserves the absence of leading whitespace. -/
theorem trimRight_headIsSpace : ∀ {s : List Nat},
    headIsSpace s = false → headIsSpace (trimRight s) = false := by
  intro s h
  cases s with
  | nil => rfl
  | cons c r =>
    rcases trimRight_shape c r with hs | hs
    · rw [hs]; rfl
    · rw [hs]
      simpa [headIsSpace] using h

/-- Right-trimming is idempotent. -/
theorem trimRight_idem : ∀ (s : List Nat), trimRight (trimRight s) = trimRight s := by
  intro s
  induction s with
  | nil => rfl
  | cons c r ih =>
    rcases trimRight_shape c r with hs | hs
    · rw [hs]; rfl
    · rw [hs]
      simp only [trimRight, ih]
      by_cases hc : trimRight r = [] ∧ isSpace c
      · exfalso
        have := hs
        simp only [trimRight, if_pos hc] at this
        exact List.noConfusion this
      · rw [if_neg hc]

/-- The trimmed string is fixed by both trims. -/
theorem trim_fixed (s : List Nat) : trimLeft (trim s) = trim s ∧ trimRight (trim s) = trim s :=
  ⟨trimLeft_fixed (trimRight_headIsSpace (trimLeft_headIsSpace s)), trimRight_idem _⟩

/-- Introduction rule for the whitespace discipline. -/
theorem spacedOK_cons {c : Nat} {X : List Nat}
    (h1 : isSpace c = true → (c = 32 ∧ headIsSpace X = false)) (h2 : spacedOK X) :
    spacedOK (c :: X) := by
  cases X with
  | nil => exact fun h => (h1 h).1
  | cons d r =>
    refine ⟨fun h => ⟨(h1 h).1, ?_⟩, h2⟩
    simpa [headIsSpace] using (h1 h).2

/-- The whitespace discipline is closed under tails. -/
theorem spacedOK_tail {c : Nat} {X : List Nat} (h : spacedOK (c :: X)) : spacedOK X := by
  cases X with
  | nil => trivial
  | cons d r => exact h.2

/-- Head facts under the whitespace discipline. -/
theorem spacedOK_head {c : Nat} {X : List Nat} (h : spacedOK (c :: X))
    (hs : isSpace c = true) : c = 32 ∧ headIsSpace X = false := by
  cases X with
  | nil => exact ⟨h hs, rfl⟩
  | cons d r =>
    refine ⟨(h.1 hs).1, ?_⟩
    simpa [headIsSpace] using (h.1 hs).2

/-- A collapse that believes whitespace precedes never emits leading
whitespace. -/
theorem collapseFrom_true_headIsSpace :
    ∀ (s : List Nat), headIsSpace (collapseFrom true s) = false := by
  intro s
  induction s with
  | nil => rfl
  | cons c r ih =>
    simp only [collapseFrom]
    by_cases hc : isSpace c
    · rw [if_pos hc]
      exact ih
    · rw [if_neg hc]
      simpa [headIsSpace] using hc

/-- The collapsed string obeys the whitespace discipline. -/
theorem spacedOK_collapseFrom : ∀ (s : List Nat) (b : Bool), spacedOK (collapseFrom b s) := by
  intro s
  induction s with
  | nil => intro b; trivial
  | cons c r ih =>
    intro b
    simp only [collapseFrom]
    by_cases hc : isSpace c
    · rw [if_pos hc]
      cases b with
      | true => exact ih true
      | false =>
        exact spacedOK_cons (fun _ => ⟨rfl, collapseFrom_true_headIsSpace r⟩) (ih true)
    · rw [if_neg hc]
      exact spacedOK_cons (fun h => absurd h (by simpa using hc)) (ih false)

/-- When nothing leads with whitespace the two collapse states agree. -/
theorem collapseFrom_true_eq : ∀ {s : List Nat},
    headIsSpace s = false → collapseFrom true s = collapseFrom false s := by
  intro s h
  cases s with
  | nil => rfl
  | cons c r =>
    have hc : isSpace c = false := by simpa [headIsSpace] using h
    simp only [collapseFrom, hc]
    rw [if_neg (by simp [hc]), if_neg (by simp [hc])]

/-- Strings obeying the whitespace discipline are fixed by collapsing. -/
theorem collapseFrom_of_spacedOK : ∀ (s : List Nat), spacedOK s → collapseFrom false s = s := by
  intro s
  induction s with
  | nil => intro _; rfl
  | cons c r ih =>
    intro h
    simp only [collapseFrom]
    by_cases hc : isSpace c
    · rw [if_pos hc]
      obtain ⟨h32, hr⟩ := spacedOK_head h (by simpa using hc)
      rw [collapseFrom_true_eq hr, ih (spacedOK_tail h), h32]
      simp
    · rw [if_neg hc]
      rw [ih (spacedOK_tail h)]

/-- Left-trimming preserves the whitespace discipline. -/
theorem spacedOK_trimLeft : ∀ (s : List Nat), spacedOK s → spacedOK (trimLeft s) := by
  intro s
  induction s with
  | nil => intro _; trivial
  | cons c r ih =>
    intro h
    by_cases hc : isSpace c
    · rw [trimLeft, List.dropWhile_cons_of_pos hc]
      exact ih (spacedOK_tail h)
    · rw [trimLeft, List.dropWhile_cons_of_neg hc]
      exact h

/-- Right-trimming preserves the whitespace discipline. -/
theorem spacedOK_trimRight : ∀ (s : List Nat), spacedOK s → spacedOK (trimRight s) := by
  intro s
  induction s with
  | nil => intro _; trivial
  | cons c r ih =>
    intro h
    rcases trimRight_shape c r with hs | hs
    · rw [hs]; trivial
    · rw [hs]
      refine spacedOK_cons (fun hsp => ?_) (ih (spacedOK_tail h))
      obtain ⟨h32, hr⟩ := spacedOK_head h hsp
      exact ⟨h32, trimRight_headIsSpace hr⟩

/-- Strings with no remaining match are fixed by the `\b(the\s+)` scanner. -/
theorem removeTheFrom_of_noThe :
    ∀ (bdry : Bool) (s : List Nat), noThe bdry s → removeTheFrom false bdry s = s := by
  intro bdry s
  induction bdry, s using noThe.induct with
  | case1 bdry => exact fun _ => rfl
  | case2 bdry rest ih =>
    intro h
    rw [noThe_deep] at h
    have hng : ¬(((false || bdry) && headIsSpace rest) = true) := by
      simp only [Bool.false_or, Bool.and_eq_true, not_and, Bool.not_eq_true]
      exact h.1
    rw [removeTheFrom_deep, if_neg hng, ih h.2]
  | case3 bdry c r hne ih =>
    intro h
    rw [noThe_generic bdry c r hne] at h
    rw [removeTheFrom_generic false bdry c r hne, if_neg (by simp), ih h]

/-- The scanner never outputs leading whitespace if it starts inside a
skipped run or its input has none. -/
theorem removeTheFrom_headIsSpace :
    ∀ (skip bdry : Bool) (s : List Nat), skip = true ∨ headIsSpace s = false →
      headIsSpace (removeTheFrom skip bdry s) = false := by
  intro skip bdry s
  induction skip, bdry, s using removeTheFrom.induct with
  | case1 skip bdry => intro _; rfl
  | case2 skip bdry rest hcond ih =>
    intro _
    rw [removeTheFrom_deep, if_pos hcond]
    exact ih (Or.inl rfl)
  | case3 skip bdry rest hcond ih =>
    intro _
    rw [removeTheFrom_deep, if_neg hcond]
    rfl
  | case4 skip bdry c r hne hcond ih =>
    intro _
    rw [removeTheFrom_generic skip bdry c r hne, if_pos hcond]
    exact ih (Or.inl rfl)
  | case5 skip bdry c r hne hcond ih =>
    intro hh
    rw [removeTheFrom_generic skip bdry c r hne, if_neg hcond]
    rcases hh with hh | hh
    · subst hh
      simp only [Bool.true_and] at hcond
      simpa [headIsSpace] using hcond
    · simpa [headIsSpace] using hh

/-- With no skipped run and no boundary, the scanner keeps the head and
continues behind it. -/
theorem removeTheFrom_false_false_cons (d : Nat) (r : List Nat) :
    removeTheFrom false false (d :: r) = d :: removeTheFrom false (!isWordChar d) r := by
  by_cases hd : d = 116
  · subst hd
    cases r with
    | nil => rfl
    | cons c2 r2 =>
      by_cases h2 : c2 = 104
      · subst h2
        cases r2 with
        | nil => rfl
        | cons c3 r3 =>
          by_cases h3 : c3 = 101
          · subst h3
            rw [removeTheFrom_deep, if_neg (by simp)]
            rw [show (!isWordChar 116) = false from rfl]
            rw [removeTheFrom_generic false false 104 (101 :: r3)
              (fun rest h _ => by omega), if_neg (by simp)]
            rw [show (!isWordChar 104) = false from rfl]
            rw [removeTheFrom_generic false false 101 r3
              (fun rest h _ => by omega), if_neg (by simp)]
            rw [show (!isWordChar 101) = false from rfl]
          · rw [removeTheFrom_generic false false 116 (104 :: c3 :: r3)
              (fun rest _ hh => by
                obtain ⟨ha, hb⟩ := List.cons.inj hh
                obtain ⟨hc, _⟩ := List.cons.inj hb
                exact h3 hc), if_neg (by simp)]
      · rw [removeTheFrom_generic false false 116 (c2 :: r2)
          (fun rest _ hh => by
            obtain ⟨ha, _⟩ := List.cons.inj hh
            exact h2 ha), if_neg (by simp)]
  · rw [removeTheFrom_generic false false d r (fun rest h _ => hd h), if_neg (by simp)]

/-- Either a string starts with the two characters `he`, or it does not. -/
theorem he_shape (T : List Nat) :
    (∃ T3, T = 104 :: 101 :: T3) ∨ (∀ T3, T ≠ 104 :: 101 :: T3) := by
  cases T with
  | nil => exact Or.inr (fun T3 h => List.noConfusion h)
  | cons c2 T2 =>
    by_cases h2 : c2 = 104
    · subst h2
      cases T2 with
      | nil => exact Or.inr (fun T3 h => by
          obtain ⟨_, hb⟩ := List.cons.inj h
          exact List.noConfusion hb)
      | cons c3 T3 =>
        by_cases h3 : c3 = 101
        · subst h3
          exact Or.inl ⟨T3, rfl⟩
        · exact Or.inr (fun T4 h => by
            obtain ⟨_, hb⟩ := List.cons.inj h
            obtain ⟨hc, _⟩ := List.cons.inj hb
            exact h3 hc)
    · exact Or.inr (fun T3 h => by
        obtain ⟨ha, _⟩ := List.cons.inj h
        exact h2 ha)

/-- The output of the `\b(the\s+)` scanner carries no remaining match. -/
theorem noThe_removeTheFrom :
    ∀ (skip bdry : Bool) (s : List Nat), noThe (skip || bdry) (removeTheFrom skip bdry s) := by
  intro skip bdry s
  induction skip, bdry, s using removeTheFrom.induct with
  | case1 skip bdry => rw [removeTheFrom.eq_def]; trivial
  | case2 skip bdry rest hcond ih =>
    rw [removeTheFrom_deep, if_pos hcond]
    have hsb : (skip || bdry) = true := by
      cases hob : (skip || bdry) with
      | true => rfl
      | false => rw [hob] at hcond; simp at hcond
    rw [hsb]
    simpa using ih
  | case3 skip bdry rest hcond ih =>
    rw [removeTheFrom_deep, if_neg hcond]
    rw [noThe_deep]
    refine ⟨fun hsb => ?_, by simpa using ih⟩
    have hrest : headIsSpace rest = false := by
      rcases hh : headIsSpace rest with _ | _
      · rfl
      · exfalso
        apply hcond
        simp [hsb, hh]
    exact removeTheFrom_headIsSpace false false rest (Or.inr hrest)
  | case4 skip bdry c r hne hcond ih =>
    rw [removeTheFrom_generic skip bdry c r hne, if_pos hcond]
    have hsb : (skip || bdry) = true := by
      have : skip = true := by
        rcases hsk : skip with _ | _
        · rw [hsk] at hcond; simp at hcond
        · rfl
      simp [this]
    rw [hsb]
    simpa using ih
  | case5 skip bdry c r hne hcond ih =>
    rw [removeTheFrom_generic skip bdry c r hne, if_neg hcond]
    by_cases hc : c = 116
    · subst hc
      have hT : removeTheFrom false (!isWordChar 116) r = removeTheFrom false false r := by
        simp [isWordChar]
      rcases he_shape (removeTheFrom false (!isWordChar 116) r) with ⟨T3, hT3⟩ | hner
      · exfalso
        rw [hT] at hT3
        cases r with
        | nil => exact List.noConfusion hT3
        | cons d r2 =>
          rw [removeTheFrom_false_false_cons] at hT3
          obtain ⟨hd, hrest⟩ := List.cons.inj hT3
          subst hd
          cases r2 with
          | nil =>
            rw [show removeTheFrom false (!isWordChar 104) [] = [] from rfl] at hrest
            exact List.noConfusion hrest
          | cons e r3 =>
            rw [show (!isWordChar 104) = false by simp [isWordChar],
              removeTheFrom_false_false_cons] at hrest
            obtain ⟨he, _⟩ := List.cons.inj hrest
            subst he
            exact hne r3 rfl rfl
      · rw [noThe_generic _ 116 _ (fun rest _ hh => hner rest hh)]
        simpa using ih
    · rw [noThe_generic _ c _ (fun rest hh _ => hc hh)]
      simpa using ih

/-- Whitespace characters are not word characters. -/
theorem isSpace_not_word {c : Nat} (h : isSpace c = true) : isWordChar c = false := by
  simp only [isSpace, Bool.or_eq_true, beq_iff_eq, Bool.and_eq_true, decide_eq_true_eq] at h
  simp only [isWordChar, Bool.or_eq_false_iff, Bool.and_eq_false_iff, beq_eq_false_iff_ne,
    decide_eq_false_iff_not]
  omega

/-- Whitespace characters are not the letter `t`. -/
theorem isSpace_ne_116 {c : Nat} (h : isSpace c = true) : c ≠ 116 := by
  intro hc
  subst hc
  exact absurd h (by decide)

/-- Right-trimming a string that keeps its head continues on the tail. -/
theorem trimRight_chain {r : List Nat} {d : Nat} {t : List Nat}
    (h : trimRight r = d :: t) : ∃ r2, r = d :: r2 ∧ t = trimRight r2 := by
  cases r with
  | nil => exact List.noConfusion h
  | cons e r2 =>
    rcases trimRight_shape e r2 with hs | hs
    · rw [hs] at h
      exact List.noConfusion h
    · rw [hs] at h
      obtain ⟨h1, h2⟩ := List.cons.inj h
      exact ⟨r2, by rw [h1], h2.symm⟩

/-- Collapsing a string whose output head is not whitespace continues on the
tail. -/
theorem collapse_chain {r : List Nat} {d : Nat} {t : List Nat}
    (h : collapseFrom false r = d :: t) (hd : isSpace d = false) :
    ∃ r2, r = d :: r2 ∧ t = collapseFrom false r2 := by
  cases r with
  | nil => exact List.noConfusion h
  | cons e r2 =>
    by_cases he : isSpace e
    · exfalso
      simp only [collapseFrom, if_pos he] at h
      obtain ⟨h1, _⟩ := List.cons.inj h
      rw [← h1] at hd
      exact absurd hd (by decide)
    · simp only [collapseFrom, if_neg he] at h
      obtain ⟨h1, h2⟩ := List.cons.inj h
      exact ⟨r2, by rw [h1], h2.symm⟩

/-- Collapsing steps over a non-whitespace character. -/
theorem collapseFrom_cons_not_space {c : Nat} (hc : isSpace c = false) {b : Bool}
    {r : List Nat} : collapseFrom b (c :: r) = c :: collapseFrom false r := by
  simp only [collapseFrom]
  rw [if_neg (by simp [hc])]

/-- Collapsing preserves whether the string leads with whitespace. -/
theorem collapse_headIsSpace : ∀ (r : List Nat),
    headIsSpace (collapseFrom false r) = headIsSpace r := by
  intro r
  cases r with
  | nil => rfl
  | cons c r' =>
    by_cases hc : isSpace c
    · simp only [collapseFrom, if_pos hc]
      rw [if_neg (by decide)]
      simp only [headIsSpace, hc]
      decide
    · simp only [collapseFrom, if_neg hc]
      rfl

/-- Left-trimming preserves the absence of `\b(the\s+)` matches. -/
theorem noThe_trimLeft : ∀ (s : List Nat), noThe true s → noThe true (trimLeft s) := by
  intro s
  induction s with
  | nil => exact fun h => h
  | cons c r ih =>
    intro h
    by_cases hc : isSpace c
    · rw [trimLeft, List.dropWhile_cons_of_pos hc]
      rw [noThe_generic true c r (fun rest h1 _ => isSpace_ne_116 hc h1)] at h
      rw [isSpace_not_word hc] at h
      exact ih h
    · rw [trimLeft, List.dropWhile_cons_of_neg hc]
      exact h

/-- Right-trimming preserves the absence of `\b(the\s+)` matches. -/
theorem noThe_trimRight :
    ∀ (bdry : Bool) (s : List Nat), noThe bdry s → noThe bdry (trimRight s) := by
  intro bdry s
  induction bdry, s using noThe.induct with
  | case1 bdry => exact fun _ => trivial
  | case2 bdry rest ih =>
    intro h
    rw [noThe_deep] at h
    rcases trimRight_shape 116 (104 :: 101 :: rest) with hs | hs
    · rw [hs]; trivial
    · rw [hs]
      rcases trimRight_shape 104 (101 :: rest) with hs2 | hs2
      · rw [hs2]
        rw [noThe_generic bdry 116 [] (fun rest' _ hh => List.noConfusion hh)]
        trivial
      · rw [hs2]
        rcases trimRight_shape 101 rest with hs3 | hs3
        · rw [hs3]
          rw [noThe_generic bdry 116 [104] (fun rest' _ hh => by
            obtain ⟨_, hb⟩ := List.cons.inj hh
            exact List.noConfusion hb)]
          rw [noThe_generic _ 104 [] (fun rest' hh _ => by omega)]
          trivial
        · rw [hs3, noThe_deep]
          exact ⟨fun hb => trimRight_headIsSpace (h.1 hb), ih h.2⟩
  | case3 bdry c r hne ih =>
    intro h
    rw [noThe_generic bdry c r hne] at h
    rcases trimRight_shape c r with hs | hs
    · rw [hs]; trivial
    · rw [hs]
      by_cases hc : c = 116
      · subst hc
        rcases he_shape (trimRight r) with ⟨T3, hT⟩ | hner
        · exfalso
          obtain ⟨r2, hr2, ht2⟩ := trimRight_chain hT
          obtain ⟨r3, hr3, _⟩ := trimRight_chain ht2.symm
          exact hne r3 rfl (by rw [hr2, hr3])
        · rw [noThe_generic bdry 116 (trimRight r) (fun rest _ hh => hner rest hh)]
          exact ih h
      · rw [noThe_generic bdry c (trimRight r) (fun rest h1 _ => hc h1)]
        exact ih h

/-- Collapsing preserves the absence of `\b(the\s+)` matches: the boundary
flag of the scan is maintained because whitespace stays whitespace and all
other characters are kept unchanged. -/
theorem noThe_collapseFrom :
    ∀ (bdry : Bool) (s : List Nat) (prevSp : Bool), (prevSp = true → bdry = true) →
      noThe bdry s → noThe bdry (collapseFrom prevSp s) := by
  intro bdry s
  induction bdry, s using noThe.induct with
  | case1 bdry => intro prevSp _ _; cases prevSp <;> trivial
  | case2 bdry rest ih =>
    intro prevSp _ h
    rw [noThe_deep] at h
    have e1 : collapseFrom prevSp (116 :: 104 :: 101 :: rest) =
        116 :: 104 :: 101 :: collapseFrom false rest := by
      rw [collapseFrom_cons_not_space (by decide), collapseFrom_cons_not_space (by decide),
        collapseFrom_cons_not_space (by decide)]
    rw [e1, noThe_deep]
    refine ⟨fun hb => ?_, ?_⟩
    · rw [collapse_headIsSpace]
      exact h.1 hb
    · exact ih false (fun hh => hh) h.2
  | case3 bdry c r hne ih =>
    intro prevSp hps h
    rw [noThe_generic bdry c r hne] at h
    by_cases hsp : isSpace c
    · have hw : (!isWordChar c) = true := by rw [isSpace_not_word hsp]; rfl
      rw [hw] at h
      cases prevSp with
      | true =>
        rw [show collapseFrom true (c :: r) = collapseFrom true r by
          simp [collapseFrom, hsp]]
        rw [hps rfl]
        have hih := ih true (fun _ => hw) (by rw [hw]; exact h)
        rwa [hw] at hih
      | false =>
        rw [show collapseFrom false (c :: r) = 32 :: collapseFrom true r by
          simp [collapseFrom, hsp]]
        rw [noThe_generic bdry 32 _ (fun rest hh _ => by omega)]
        rw [show (!isWordChar 32) = true from rfl]
        have hih := ih true (fun _ => hw) (by rw [hw]; exact h)
        rwa [hw] at hih
    · rw [show collapseFrom prevSp (c :: r) = c :: collapseFrom false r by
        simp [collapseFrom, hsp]]
      by_cases hc : c = 116
      · subst hc
        rcases he_shape (collapseFrom false r) with ⟨T3, hT⟩ | hner
        · exfalso
          obtain ⟨r2, hr2, ht2⟩ := collapse_chain hT (by decide)
          obtain ⟨r3, hr3, _⟩ := collapse_chain ht2.symm (by decide)
          exact hne r3 rfl (by rw [hr2, hr3])
        · rw [noThe_generic bdry 116 (collapseFrom false r) (fun rest _ hh => hner rest hh)]
          exact ih false (fun hh => (Bool.false_ne_true hh).elim) h
      · rw [noThe_generic bdry c (collapseFrom false r) (fun rest h1 _ => hc h1)]
        exact ih false (fun hh => (Bool.false_ne_true hh).elim) h

/-- Right-trimming never lengthens a string. -/
theorem trimRight_length_le : ∀ (s : List Nat), (trimRight s).length ≤ s.length := by
  intro s
  induction s with
  | nil => exact Nat.le_refl 0
  | cons c r ih =>
    rcases trimRight_shape c r with hs | hs
    · rw [hs]; simp
    · rw [hs]
      simpa using ih

/-- Trimming never lengthens a string. -/
theorem trim_length_le (s : List Nat) : (trim s).length ≤ s.length :=
  Nat.le_trans (trimRight_length_le _) (List.dropWhile_sublist isSpace).length_le

/-- Collapsing never lengthens a string. -/
theorem collapseFrom_length_le : ∀ (s : List Nat) (b : Bool),
    (collapseFrom b s).length ≤ s.length := by
  intro s
  induction s with
  | nil => intro b; exact Nat.le_refl 0
  | cons c r ih =>
    intro b
    simp only [collapseFrom]
    by_cases hc : isSpace c
    · rw [if_pos hc]
      cases b with
      | true => exact Nat.le_succ_of_le (ih true)
      | false => simpa using ih true
    · rw [if_neg hc]
      simpa using ih false

/-- The `\b(the\s+)` scanner never lengthens a string. -/
theorem removeTheFrom_length_le : ∀ (skip bdry : Bool) (s : List Nat),
    (removeTheFrom skip bdry s).length ≤ s.length := by
  intro skip bdry s
  induction skip, bdry, s using removeTheFrom.induct with
  | case1 skip bdry => exact Nat.le_refl 0
  | case2 skip bdry rest hcond ih =>
    rw [removeTheFrom_deep, if_pos hcond]
    refine Nat.le_trans ih ?_
    simp
    omega
  | case3 skip bdry rest hcond ih =>
    rw [removeTheFrom_deep, if_neg hcond]
    simpa using ih
  | case4 skip bdry c r hne hcond ih =>
    rw [removeTheFrom_generic skip bdry c r hne, if_pos hcond]
    exact Nat.le_succ_of_le ih
  | case5 skip bdry c r hne hcond ih =>
    rw [removeTheFrom_generic skip bdry c r hne, if_neg hcond]
    simpa using ih

/-- When the suffix scan changes the string it strictly shortens it. -/
theorem stripSuffixScan_lt : ∀ (s : List Nat) (b : Bool),
    stripSuffixScan b s ≠ s → (stripSuffixScan b s).length < s.length := by
  intro s
  induction s with
  | nil => intro b h; exact absurd rfl h
  | cons c r ih =>
    intro b h
    simp only [stripSuffixScan] at h ⊢
    by_cases hc : (b && suffixAlts.any fun alt => matchWordsEnd alt (c :: r)) = true
    · rw [if_pos hc]
      simp
    · rw [if_neg hc] at h ⊢
      have hr : stripSuffixScan (!isWordChar c) r ≠ r := by
        intro he
        exact h (by rw [he])
      simpa using ih (!isWordChar c) hr

/-- Mapping a function that fixes every element fixes the list. -/
theorem map_id_of_mem {f : Nat → Nat} :
    ∀ {l : List Nat}, (∀ a ∈ l, f a = a) → l.map f = l := by
  intro l
  induction l with
  | nil => intro _; rfl
  | cons c r ih =>
    intro h
    rw [List.map_cons, h c (List.mem_cons_self c r), ih (fun a ha => h a (List.mem_cons_of_mem c ha))]

/-- Unfolding of the normalizer outside its guard. -/
theorem normalize_shape (x : List Nat) (hx : ¬(x = [] ∨ x = naStr)) :
    normalize_company_name x =
      trim (collapse (removeThe (stripSuffixScan true
        ((collapse (trim (x.map lowerChar))).filter keepChar)))) := by
  rw [normalize_company_name, if_neg hx]

/-- Characters of a normalized name are lowercased characters of the input
or spaces, and all survive the punctuation filter. -/
theorem normalize_chars (x : List Nat) (hx : ¬(x = [] ∨ x = naStr)) (a : Nat)
    (h : a ∈ normalize_company_name x) :
    (a ∈ x.map lowerChar ∨ a = 32) ∧ keepChar a = true := by
  rw [normalize_shape x hx] at h
  have h1 := mem_trim h
  rcases mem_collapseFrom h1 with h2 | h2
  · have h3 := mem_removeTheFrom false true _ h2
    have h4 := mem_stripSuffixScan h3
    obtain ⟨h5, hk⟩ := List.mem_filter.mp h4
    rcases mem_collapseFrom h5 with h6 | h6
    · exact ⟨Or.inl (mem_trim h6), hk⟩
    · exact ⟨Or.inr h6, hk⟩
  · exact ⟨Or.inr h2, by rw [h2]; decide⟩

/-- Normalized names contain no uppercase letters. -/
theorem normalize_not_upper (x : List Nat) (hx : ¬(x = [] ∨ x = naStr)) (a : Nat)
    (h : a ∈ normalize_company_name x) : ¬(65 ≤ a ∧ a ≤ 90) := by
  rcases (normalize_chars x hx a h).1 with h1 | h1
  · obtain ⟨b, _, hb⟩ := List.mem_map.mp h1
    rw [← hb]
    exact lowerChar_not_upper b
  · omega

/-- Lowercasing fixes a normalized name. -/
theorem normalize_fix_lower (x : List Nat) (hx : ¬(x = [] ∨ x = naStr)) :
    (normalize_company_name x).map lowerChar = normalize_company_name x :=
  map_id_of_mem (fun a ha => lowerChar_fixed (normalize_not_upper x hx a ha))

/-- Both trims fix a normalized name. -/
theorem normalize_fix_trim (x : List Nat) (hx : ¬(x = [] ∨ x = naStr)) :
    trimLeft (normalize_company_name x) = normalize_company_name x ∧
    trimRight (normalize_company_name x) = normalize_company_name x := by
  rw [normalize_shape x hx]
  exact trim_fixed _

/-- Trimming fixes a normalized name. -/
theorem normalize_fix_trim2 (x : List Nat) (hx : ¬(x = [] ∨ x = naStr)) :
    trim (normalize_company_name x) = normalize_company_name x := by
  have h := normalize_fix_trim x hx
  show trimRight (trimLeft (normalize_company_name x)) = normalize_company_name x
  rw [h.1, h.2]

/-- Collapsing fixes a normalized name. -/
theorem normalize_fix_collapse (x : List Nat) (hx : ¬(x = [] ∨ x = naStr)) :
    collapseFrom false (normalize_company_name x) = normalize_company_name x := by
  rw [normalize_shape x hx]
  exact collapseFrom_of_spacedOK _
    (spacedOK_trimRight _ (spacedOK_trimLeft _ (spacedOK_collapseFrom _ false)))

/-- The punctuation filter fixes a normalized name. -/
theorem normalize_fix_filter (x : List Nat) (hx : ¬(x = [] ∨ x = naStr)) :
    (normalize_company_name x).filter keepChar = normalize_company_name x :=
  List.filter_eq_self.mpr (fun a ha => (normalize_chars x hx a ha).2)

/-- The `\b(the\s+)` removal fixes a normalized name: the first pass removed
every match and the later collapse and trim phases cannot create one. -/
theorem normalize_fix_removeThe (x : List Nat) (hx : ¬(x = [] ∨ x = naStr)) :
    removeThe (normalize_company_name x) = normalize_company_name x := by
  rw [normalize_shape x hx]
  have h1 : noThe true (removeTheFrom false true
      (stripSuffixScan true ((collapse (trim (x.map lowerChar))).filter keepChar))) := by
    simpa using noThe_removeTheFrom false true
      (stripSuffixScan true ((collapse (trim (x.map lowerChar))).filter keepChar))
  have h2 := noThe_collapseFrom true _ false (fun _ => rfl) h1
  have h3 := noThe_trimLeft _ h2
  have h4 := noThe_trimRight true _ h3
  exact removeTheFrom_of_noThe true _ h4

/-- C3 counterexample: the normalizer is not idempotent.  A single pass
strips only one trailing corporate suffix, so `Acme Holdings Ltd`
normalizes to `acme holdings`, which a second pass reduces further to
`acme`. -/
theorem c3_counterexample :
    normalize_company_name (normalize_company_name (encode "Acme Holdings Ltd")) ≠
      normalize_company_name (encode "Acme Holdings Ltd") := by decide

/-- C3 amended: the normalizer is idempotent exactly at those inputs whose
normalized form the trailing-suffix-stripping pass leaves unchanged.  Every
other phase of the pipeline fixes every normalized name, so a second
application differs from the first exactly when the normalized name still
ends in a corporate suffix at a word boundary. -/
theorem c3_amended (x : List Nat) :
    normalize_company_name (normalize_company_name x) = normalize_company_name x ↔
    stripSuffixScan true (normalize_company_name x) = normalize_company_name x := by
  by_cases hg : normalize_company_name x = [] ∨ normalize_company_name x = naStr
  · constructor
    · intro _
      rcases hg with h | h <;> rw [h] <;> decide
    · intro _
      rw [normalize_company_name, if_pos hg]
  · have hx : ¬(x = [] ∨ x = naStr) := by
      intro hxg
      apply hg
      rw [normalize_company_name, if_pos hxg]
      exact hxg
    have hform : normalize_company_name (normalize_company_name x) =
        trim (collapse (removeThe (stripSuffixScan true (normalize_company_name x)))) := by
      rw [normalize_shape (normalize_company_name x) hg, normalize_fix_lower x hx]
      rw [normalize_fix_trim2 x hx]
      rw [show collapse (normalize_company_name x) = normalize_company_name x from
        normalize_fix_collapse x hx]
      rw [normalize_fix_filter x hx]
    constructor
    · intro hnn
      by_contra hss
      have hlt := stripSuffixScan_lt (normalize_company_name x) true hss
      have hle : (normalize_company_name (normalize_company_name x)).length ≤
          (stripSuffixScan true (normalize_company_name x)).length := by
        rw [hform]
        refine Nat.le_trans (trim_length_le _) ?_
        refine Nat.le_trans (collapseFrom_length_le _ false) ?_
        exact removeTheFrom_length_le false true _
      rw [hnn] at hle
      omega
    · intro hss
      rw [hform, hss, normalize_fix_removeThe x hx]
      rw [show collapse (normalize_company_name x) = normalize_company_name x from
        normalize_fix_collapse x hx]
      rw [normalize_fix_trim2 x hx]

/-- C3 witness: the amended characterization applied at `Acme Pty Ltd`,
whose normalized form `acme` carries no further suffix, so a second
application of the normalizer fixes it. -/
theorem c3_amended_witness :
    normalize_company_name (normalize_company_name (encode "Acme Pty Ltd")) =
      normalize_company_name (encode "Acme Pty Ltd") :=
  (c3_amended (encode "Acme Pty Ltd")).mpr (by decide)

/-- C9: the name normalizer maps `Acme Pty Ltd` to `acme`, maps
`The Smith Group` to `smith`, and returns `N/A` unchanged. -/
theorem c9_normalize_examples :
    normalize_company_name (encode "Acme Pty Ltd") = encode "acme" ∧
    normalize_company_name (encode "The Smith Group") = encode "smith" ∧
    normalize_company_name naStr = naStr :=
  ⟨by decide, by decide, by decide⟩

/-- C5 counterexample: the claim fails as stated.  A response with status
201 is a non-200 status other than 429, for which the claim requires
`Unknown`, but the code tests `response.ok` (status under 400) and returns
the trimmed body `Retail`. -/
theorem c5_counterexample :
    categorize_company_with_ai (encode "key") (encode "Developer") (encode "Acme")
      [CallResult.response 201 (some (encode "Retail"))] = encode "Retail" ∧
    (201 : Nat) ≠ 200 ∧ (201 : Nat) ≠ 429 ∧ encode "Retail" ≠ unknownLabel := by
  exact ⟨by decide, by decide, by decide, by decide⟩

/-- C5 amended: the remote classifier never raises and is a total function
of the scripted call outcomes: with a missing credential, empty company or
`N/A` company it returns `Unknown`; in every other case it either returns
`Unknown` (raised request, status 400 or above after the 429 retries,
failed body extraction, or empty trimmed body) or there is a successful
response in the sense of `response.ok` (status under 400 — not only 200 —
and not 429, parsed body present, nonempty trimmed content) preceded only
by 429 responses, whose trimmed content is returned. -/
theorem c5_remote_contract (api_key job_title company_name : List Nat)
    (calls : List CallResult) :
    ((api_key = [] ∨ company_name = [] ∨ company_name = naStr) →
      categorize_company_with_ai api_key job_title company_name calls = unknownLabel) ∧
    (categorize_company_with_ai api_key job_title company_name calls = unknownLabel ∨
      ∃ pre status content post,
        calls = pre ++ CallResult.response status (some content) :: post ∧
        (∀ cr ∈ pre, ∃ b, cr = CallResult.response 429 b) ∧
        status ≠ 429 ∧ status < 400 ∧ trim content ≠ [] ∧
        categorize_company_with_ai api_key job_title company_name calls = trim content) := by
  induction calls with
  | nil => exact ⟨fun _ => rfl, Or.inl rfl⟩
  | cons hd rest ih =>
    by_cases hg : api_key = [] ∨ company_name = [] ∨ company_name = naStr
    · refine ⟨fun _ => ?_, Or.inl ?_⟩ <;>
        simp [categorize_company_with_ai, if_pos hg]
    · refine ⟨fun h => absurd h hg, ?_⟩
      match hd with
      | CallResult.failure =>
        exact Or.inl (by simp [categorize_company_with_ai, if_neg hg])
      | CallResult.response status body =>
        by_cases hs : status = 429
        · have hval : categorize_company_with_ai api_key job_title company_name
              (CallResult.response status body :: rest) =
              categorize_company_with_ai api_key job_title company_name rest := by
            simp [categorize_company_with_ai, if_neg hg, hs]
          rcases ih.2 with hu | ⟨pre, st, co, post, hc, hpre, hst, hlt, hco, hv⟩
          · exact Or.inl (hval.trans hu)
          · refine Or.inr ⟨CallResult.response status body :: pre, st, co, post, ?_, ?_, hst, hlt,
              hco, hval.trans hv⟩
            · simp [hc]
            · intro cr hcr
              rcases List.mem_cons.mp hcr with h | h
              · exact ⟨body, by rw [h, hs]⟩
              · exact hpre cr h
        · by_cases h4 : 400 ≤ status
          · exact Or.inl (by simp [categorize_company_with_ai, if_neg hg, hs, h4])
          · match body with
            | none =>
              exact Or.inl (by simp [categorize_company_with_ai, if_neg hg, hs, h4])
            | some content =>
              by_cases he : trim content = []
              · exact Or.inl (by simp [categorize_company_with_ai, if_neg hg, hs, h4, he])
              · refine Or.inr ⟨[], status, content, rest, rfl, by simp, hs,
                  Nat.lt_of_not_le h4, he, ?_⟩
                simp [categorize_company_with_ai, if_neg hg, hs, h4, he]

/-- C5 witness: the contract applied at a concrete input with a missing
credential. -/
theorem c5_remote_contract_witness :
    categorize_company_with_ai [] (encode "Developer") (encode "Acme")
      [CallResult.response 200 (some (encode "Retail"))] = unknownLabel :=
  (c5_remote_contract [] (encode "Developer") (encode "Acme")
    [CallResult.response 200 (some (encode "Retail"))]).1 (Or.inl rfl)

/-- C4: evaluation at the failing input.  The substitution
`re.sub(r'\b(the\s+)', '', _)` of line 201 removes every word-boundary
occurrence of `the` followed by whitespace, not only a leading one, so
`Smith The Brave` normalizes to `smith brave` although the claim (and the
comment `Remove "the" prefix` of line 200) require the interior `the` to be
kept; empty and `N/A` input do pass through unchanged. -/
theorem c4_interior_the_removed :
    normalize_company_name (encode "Smith The Brave") = encode "smith brave" ∧
    normalize_company_name (encode "Smith The Brave") ≠ encode "smith the brave" ∧
    normalize_company_name [] = [] ∧
    normalize_company_name naStr = naStr :=
  ⟨by decide, by decide, by decide, by decide⟩

/-- C7: the rule matcher agrees with the first-match scan of the ordered
topic table (recruitment, healthcare, finance, education, construction,
retail, technology, manufacturing): it returns the first topic in list
order any of whose patterns matches anywhere in the name, and in particular
`Tech Talent Solutions`, which matches both a recruitment pattern and a
tech pattern, resolves to `Recruitment & Staffing`. -/
theorem c7_rule_order :
    (∀ name, categorize_with_regex name = firstTopicMatch name) ∧
    categorize_with_regex (encode "Tech Talent Solutions") =
      some (encode "Recruitment & Staffing") := by
  constructor
  · intro name
    by_cases h0 : name = [] ∨ name = naStr
    · rcases h0 with h | h <;> subst h <;> decide
    · unfold categorize_with_regex firstTopicMatch
      rw [if_neg h0]
      simp only [ruleTable]
      by_cases h1 : (recruitment_patterns.any fun p => reSearch p (name.map lowerChar)) = true
      · simp [List.find?, h1]
      · simp only [Bool.not_eq_true] at h1
        by_cases h2 : (health_patterns.any fun p => reSearch p (name.map lowerChar)) = true
        · simp [List.find?, h1, h2]
        · simp only [Bool.not_eq_true] at h2
          by_cases h3 : (finance_patterns.any fun p => reSearch p (name.map lowerChar)) = true
          · simp [List.find?, h1, h2, h3]
          · simp only [Bool.not_eq_true] at h3
            by_cases h4 : (education_patterns.any fun p => reSearch p (name.map lowerChar)) = true
            · simp [List.find?, h1, h2, h3, h4]
            · simp only [Bool.not_eq_true] at h4
              by_cases h5 :
                  (construction_patterns.any fun p => reSearch p (name.map lowerChar)) = true
              · simp [List.find?, h1, h2, h3, h4, h5]
              · simp only [Bool.not_eq_true] at h5
                by_cases h6 : (retail_patterns.any fun p => reSearch p (name.map lowerChar)) = true
                · simp [List.find?, h1, h2, h3, h4, h5, h6]
                · simp only [Bool.not_eq_true] at h6
                  by_cases h7 : (tech_patterns.any fun p => reSearch p (name.map lowerChar)) = true
                  · simp [List.find?, h1, h2, h3, h4, h5, h6, h7]
                  · simp only [Bool.not_eq_true] at h7
                    by_cases h8 :
                        (manufacturing_patterns.any fun p => reSearch p (name.map lowerChar)) = true
                    · simp [List.find?, h1, h2, h3, h4, h5, h6, h7, h8]
                    · simp only [Bool.not_eq_true] at h8
                      simp [List.find?, h1, h2, h3, h4, h5, h6, h7, h8]
  · decide

/-- C2: evaluation at the failing input.  On HTTP 429 line 159 re-enters
`categorize_company_with_ai` without any retry counter, so a batch of
outcomes 429, 429, 200 leads to a second retry that consumes the third
response and returns its trimmed label, although the claim (and the comment
`Rate limited, wait and retry once` of line 157) allow exactly one retry,
after which a second 429 would have to resolve to `Unknown`. -/
theorem c2_second_retry_consumed :
    categorize_company_with_ai (encode "key") (encode "Developer") (encode "The Co")
      [CallResult.response 429 none, CallResult.response 429 none,
       CallResult.response 200 (some (encode "  Widgets  "))] = encode "Widgets" :=
  by decide
